import Mathlib

/-!
Shallow embedding of the mail-whisperer contact-form repository:
the recipient-list operations (`RecipientsManager.tsx`, `ContactForm.tsx`),
the spreadsheet e-mail extractor (`handleExcelImport`), the attachment
staging handler and the submission handler (`Index.tsx` / `ContactForm.tsx`).

Strings are modelled as Lean `String` (a list of unicode scalar values),
JavaScript's `String.prototype.trim` / `toLowerCase` as the corresponding
operations on the character list (`toLowerCase` restricted to the ASCII
letters, which is exact on every string produced by the extraction regex,
whose character classes are ASCII-only).  React state updates are modelled
explicitly: a `setState(value)` call inside a synchronous event handler
computes `value` from the state snapshot captured by the closure, and when
several such calls are batched in one handler the last written value is the
state after the event.
-/

/-- Code points of the JavaScript `\s` class (WhiteSpace ∪ LineTerminator):
TAB, LF, VT, FF, CR, SP, NBSP, OGHAM, U+2000–U+200A, LS, PS, NNBSP, MMSP,
IDEOGRAPHIC SPACE, BOM. -/
def isJsSpaceN (n : Nat) : Bool :=
  (9 ≤ n && n ≤ 13) || n = 32 || n = 0xa0 || n = 0x1680 ||
  (0x2000 ≤ n && n ≤ 0x200a) || n = 0x2028 || n = 0x2029 || n = 0x202f ||
  n = 0x205f || n = 0x3000 || n = 0xfeff

/-- A character matched by the JavaScript class `\s`. -/
def isJsSpace (c : Char) : Bool := isJsSpaceN c.toNat

/-- A character matched by `[^\s@]`, the repeated class of the manual-entry
validation regex `^[^\s@]+@[^\s@]+\.[^\s@]+$` ('@' is code point 64). -/
def atomChar (c : Char) : Bool := !isJsSpaceN c.toNat && !(c.toNat == 64)

/-- `cs` with leading and trailing JavaScript whitespace removed
(the character-list body of `String.prototype.trim`). -/
def trimList (cs : List Char) : List Char :=
  ((cs.dropWhile isJsSpace).reverse.dropWhile isJsSpace).reverse

/-- JavaScript `String.prototype.trim`. -/
def jsTrim (s : String) : String := ⟨trimList s.data⟩

/-- JavaScript `String.prototype.toLowerCase`, restricted to ASCII
(exact on the ASCII-only strings the extraction regex produces). -/
def jsToLowerCase (s : String) : String := ⟨s.data.map Char.toLower⟩

/-- `validateEmail` from `RecipientsManager.tsx`:
`/^[^\s@]+@[^\s@]+\.[^\s@]+$/.test(email)`.

The leading `[^\s@]+` is greedy and its class excludes `@`, so the regex
matches iff the maximal leading run of `[^\s@]` characters is non-empty and
is followed by a literal `@`, and the remainder consists of `[^\s@]`
characters only and contains a `.` that is neither its first nor its last
character (the backtracking engine may pick any such dot for the `\.`). -/
def hasInnerDot (r : List Char) : Bool :=
  (List.range r.length).any fun k =>
    decide (1 ≤ k) && decide (k + 1 < r.length) && (r.get? k == some '.')

def validateEmail (email : String) : Bool :=
  match email.data.dropWhile atomChar with
  | c :: r =>
    c == '@' && !(email.data.takeWhile atomChar).isEmpty && r.all atomChar && hasInnerDot r
  | [] => false

namespace ContactForm

/-- `handleAddRecipient` from `ContactForm.tsx` (identical in the
`Index.tsx` variant): `if (email && !recipients.includes(email))
setRecipients([...recipients, email])`. -/
def handleAddRecipient (recipients : List String) (email : String) : List String :=
  if (!(email == "")) && !(recipients.contains email) then recipients ++ [email]
  else recipients

/-- `handleRemoveRecipient` from `ContactForm.tsx`:
`setRecipients(recipients.filter(r => r !== email))`, where `recipients`
is the state snapshot captured by the closure. -/
def handleRemoveRecipient (recipients : List String) (email : String) : List String :=
  recipients.filter fun r => r != email

end ContactForm

/-- Outcome toast of one manual-add attempt in `RecipientsManager.tsx`. -/
inductive AddOutcome
  | emptyInput
  | invalidFormat
  | duplicate
  | added
deriving DecidableEq

namespace RecipientsManager

/-- `handleAddRecipient` from `RecipientsManager.tsx` composed with the
parent's `onAddRecipient` callback (`ContactForm.handleAddRecipient`):
reject when the trimmed input is empty, when `validateEmail` fails on the
raw input, or when the raw input is already in `recipients`
(case-sensitive `includes`); otherwise hand the raw input to the parent. -/
def handleAddRecipient (recipients : List String) (newRecipient : String) :
    AddOutcome × List String :=
  if jsTrim newRecipient == "" then (.emptyInput, recipients)
  else if !validateEmail newRecipient then (.invalidFormat, recipients)
  else if recipients.contains newRecipient then (.duplicate, recipients)
  else (.added, ContactForm.handleAddRecipient recipients newRecipient)

/-- The `Clear All` `onClick` handler from `RecipientsManager.tsx`:
`recipients.forEach(email => onRemoveRecipient(email))`.  Every
`onRemoveRecipient` call runs `ContactForm.handleRemoveRecipient`, whose
`setRecipients(recipients.filter(...))` reads the same pre-click snapshot;
React batches the updates of the synchronous handler, so the state after
the click is the value written by the last call (the accumulator of the
fold is dead, exactly as the pending React state is overwritten). -/
def clearAllClick (recipients : List String) : List String :=
  recipients.foldl (fun _pending email => ContactForm.handleRemoveRecipient recipients email)
    recipients

end RecipientsManager

/-! ## The spreadsheet e-mail extractor (`handleExcelImport`, `part_000`) -/

/-- A character of the extraction regex's local-part class
`[a-zA-Z0-9._%+-]` ('.' 46, '_' 95, '%' 37, '+' 43, '-' 45). -/
def isLocalChar (c : Char) : Bool :=
  let n := c.toNat
  (65 ≤ n && n ≤ 90) || (97 ≤ n && n ≤ 122) || (48 ≤ n && n ≤ 57) ||
  n = 46 || n = 95 || n = 37 || n = 43 || n = 45

/-- A character of the extraction regex's domain class `[a-zA-Z0-9.-]`. -/
def isDomainChar (c : Char) : Bool :=
  let n := c.toNat
  (65 ≤ n && n ≤ 90) || (97 ≤ n && n ≤ 122) || (48 ≤ n && n ≤ 57) ||
  n = 46 || n = 45

/-- A character of the extraction regex's TLD class `[a-zA-Z]`. -/
def isTldChar (c : Char) : Bool :=
  let n := c.toNat
  (65 ≤ n && n ≤ 90) || (97 ≤ n && n ≤ 122)

/-- Backtracking of `[a-zA-Z0-9.-]+\.[a-zA-Z]{2,}` inside the maximal
domain-class run `r`: the greedy `+` picks the largest `k ≥ 1` such that
`r` has a `.` at index `k` followed by at least two TLD letters (the TLD
run cannot extend past `r` because letters are domain characters). -/
def findSplit (r : List Char) : Option Nat :=
  ((List.range r.length).filter fun k =>
    decide (1 ≤ k) && (r.get? k == some '.') &&
    decide (2 ≤ ((r.drop (k + 1)).takeWhile isTldChar).length)).max?

/-- One attempt of the extraction regex
`[a-zA-Z0-9._%+-]+@[a-zA-Z0-9.-]+\.[a-zA-Z]{2,}` anchored at the head of
`cs`: greedy local part (its class excludes `@`, so only the maximal run
can be followed by the literal `@`), then the domain/TLD backtracking of
`findSplit`.  Returns the matched prefix and the rest of the input. -/
def matchAt (cs : List Char) : Option (List Char × List Char) :=
  let a := cs.takeWhile isLocalChar
  if a.isEmpty then none
  else
    match cs.drop a.length with
    | c :: rest =>
      if c == '@' then
        let r := rest.takeWhile isDomainChar
        match findSplit r with
        | some k =>
          let t := ((r.drop (k + 1)).takeWhile isTldChar).length
          let mlen := a.length + 1 + (k + 1 + t)
          some (cs.take mlen, cs.drop mlen)
        | none => none
      else none
    | [] => none

/-- `cell.match(/.../g)`: scan left to right, collecting non-overlapping
matches; on failure the engine advances one character.  `fuel` bounds the
recursion; every step consumes at least one character, so `cs.length`
fuel is exact. -/
def scanAux : Nat → List Char → List (List Char)
  | 0, _ => []
  | _, [] => []
  | fuel + 1, c :: cs =>
    match matchAt (c :: cs) with
    | some (m, rest) => m :: scanAux fuel rest
    | none => scanAux fuel cs

/-- All matches of the extraction regex in one cell, in scan order. -/
def extractMatches (cell : String) : List String :=
  (scanAux cell.data.length cell.data).map fun cs => ⟨cs⟩

/-- The three per-import accumulators of `handleExcelImport`
(`emails`, `duplicates`, `invalid`), each `push`ed at most once per
distinct string. -/
structure ImportTally where
  emails : List String
  duplicates : List String
  invalid : List String
deriving DecidableEq

/-- The body of the innermost `potentialEmails.forEach` of
`handleExcelImport`: normalize (`trim().toLowerCase()`), re-validate, and
classify into duplicates / new / invalid, deduplicating each list. -/
def classifyMatch (recipients : List String) (t : ImportTally) (emailMatch : String) :
    ImportTally :=
  let email := jsToLowerCase (jsTrim emailMatch)
  if validateEmail email then
    if recipients.contains email then
      if t.duplicates.contains email then t
      else { t with duplicates := t.duplicates ++ [email] }
    else
      if t.emails.contains email then t
      else { t with emails := t.emails ++ [email] }
  else
    if t.invalid.contains emailMatch then t
    else { t with invalid := t.invalid ++ [emailMatch] }

/-- Processing of one string-valued cell: classify every regex match. -/
def scanCell (recipients : List String) (t : ImportTally) (cell : String) : ImportTally :=
  (extractMatches cell).foldl (classifyMatch recipients) t

/-- A cell: `some s` for a string-valued cell, `none` for an empty or
non-string cell (skipped by the `typeof cell === 'string'` guard). -/
abbrev Cell := Option String

/-- A sheet: the rectangular grid of rows of cells. -/
abbrev Sheet := List (List Cell)

/-- A parsed workbook: its ordered sequence of sheets. -/
abbrev Workbook := List Sheet

/-- The string cells of one sheet in the order `handleExcelImport` visits
them: pass 1 (`sheet_to_json` with headers — the field values of every
record, i.e. every data row after the header row) followed by pass 2
(`sheet_to_json` with `header: 1` — every cell of every raw row). -/
def cellStream (sheet : Sheet) : List String :=
  ((sheet.drop 1).map fun row => row.filterMap id).flatten ++
  (sheet.map fun row => row.filterMap id).flatten

/-- The whole classification phase of `handleExcelImport`: both passes of
every sheet, in sheet order, folded over the empty tally. -/
def runImport (recipients : List String) (wb : Workbook) : ImportTally :=
  ((wb.map cellStream).flatten).foldl (scanCell recipients) ⟨[], [], []⟩

/-- The single toast reported at the end of `handleExcelImport`. -/
inductive ImportOutcome
  | importFailed
  | noEmailsFound
  | completed (imported duplicates invalid : Nat)
deriving DecidableEq

/-- `handleExcelImport`, from the parse result of the uploaded bytes
(`none` when `XLSX.read` throws) to the reported outcome, the ordered
arguments of the `onAddRecipient` calls (`emails.forEach(email =>
onAddRecipient(email))`) and the final recipient list.

Every `onAddRecipient` call runs `ContactForm.handleAddRecipient` against
the same pre-import state snapshot: an iteration whose guard fails issues
no `setRecipients` call (the pending state is untouched), one whose guard
passes overwrites the pending state with `recipients ++ [email]` computed
from the snapshot; the last batched write is the state after the import —
the same semantics `RecipientsManager.clearAllClick` models. -/
def handleExcelImport (parsed : Option Workbook) (recipients : List String) :
    ImportOutcome × List String × List String :=
  match parsed with
  | none => (.importFailed, [], recipients)
  | some wb =>
    let t := runImport recipients wb
    let final := t.emails.foldl
      (fun pending email =>
        if (!(email == "")) && !(recipients.contains email) then recipients ++ [email]
        else pending)
      recipients
    if t.emails.length = 0 && t.duplicates.length = 0 then
      (.noEmailsFound, t.emails, final)
    else
      (.completed t.emails.length t.duplicates.length t.invalid.length, t.emails, final)

/-! ## Attachments and submission (`Index.tsx`) -/

/-- The `name`/`size` part of an attached `File` (the fields the handler
inspects). -/
structure FileDesc where
  name : String
  size : Nat
deriving DecidableEq

/-- `10 * 1024 * 1024` bytes. -/
def maxSize : Nat := 10 * 1024 * 1024

/-- At most five staged attachments. -/
def maxFiles : Nat := 5

/-- The toast(s) of one `handleFileAttach` call: either the single
`Too Many Files` rejection, or acceptance with one `File Too Large`
toast per oversize file of the batch. -/
inductive AttachOutcome
  | tooMany
  | accepted (oversizeNames : List String)
deriving DecidableEq

/-- `handleFileAttach` from `Index.tsx`: reject the whole batch when
`attachedFiles.length + files.length > maxFiles`; otherwise drop (and
toast) each file with `size > maxSize` and append the remaining files. -/
def handleFileAttach (attachedFiles files : List FileDesc) :
    AttachOutcome × List FileDesc :=
  if maxFiles < attachedFiles.length + files.length then
    (.tooMany, attachedFiles)
  else
    (.accepted ((files.filter fun f => decide (maxSize < f.size)).map FileDesc.name),
     attachedFiles ++ files.filter fun f => !decide (maxSize < f.size))

/-- The observable steps of one `onSubmit` run, in order. -/
inductive SubmitEvent
  | noRecipientsToast
  | loadingSet
  | sendDelay
  | successToast
  | formReset
  | loadingCleared
deriving DecidableEq

/-- `onSubmit` from `ContactForm.tsx` / `Index.tsx`: with zero recipients
it toasts `No Recipients` and returns; otherwise it sets the loading
flag, awaits the simulated 2-second delay, toasts success, resets the
form and clears the loading flag. -/
def onSubmit (recipients : List String) : List SubmitEvent :=
  if recipients.length = 0 then [.noRecipientsToast]
  else [.loadingSet, .sendDelay, .successToast, .formReset, .loadingCleared]

/-- The workbook of the spec's extractor example: one sheet, one row,
cells `["a@x.com", "A@X.COM", "not-an-email", "b@y.com c@z.com"]`. -/
def wbExample : Workbook :=
  [[[some "a@x.com", some "A@X.COM", some "not-an-email", some "b@y.com c@z.com"]]]

/-! ## Helper lemmas -/

theorem dropWhile_eq_self_of_all {α : Type} (p : α → Bool) (l : List α)
    (h : ∀ x ∈ l, p x = false) : l.dropWhile p = l := by
  cases l with
  | nil => rfl
  | cons x xs =>
    rw [List.dropWhile_cons, if_neg]
    simp [h x (List.mem_cons_self x xs)]

theorem trimList_eq_nil_iff (cs : List Char) :
    trimList cs = [] ↔ ∀ c ∈ cs, isJsSpace c = true := by
  unfold trimList
  rw [List.reverse_eq_nil_iff, List.dropWhile_eq_nil_iff]
  constructor
  · intro h c hc
    rcases List.mem_append.1 (by rw [List.takeWhile_append_dropWhile (p := isJsSpace)]; exact hc :
        c ∈ cs.takeWhile isJsSpace ++ cs.dropWhile isJsSpace) with h1 | h1
    · exact List.mem_takeWhile_imp h1
    · exact h c (List.mem_reverse.2 h1)
  · intro h c hc
    refine h c ?_
    have h1 : c ∈ cs.dropWhile isJsSpace := List.mem_reverse.1 hc
    have : cs.dropWhile isJsSpace <:+ cs := List.dropWhile_suffix isJsSpace
    exact this.subset h1

theorem jsTrim_eq_empty_iff (s : String) :
    jsTrim s = "" ↔ s.data.all isJsSpace = true := by
  unfold jsTrim
  rw [List.all_eq_true]
  constructor
  · intro h
    have : trimList s.data = [] := congrArg String.data h
    exact (trimList_eq_nil_iff s.data).1 this
  · intro h
    have : trimList s.data = [] := (trimList_eq_nil_iff s.data).2 h
    rw [this]

theorem mem_at_of_validateEmail {s : String} (h : validateEmail s = true) :
    '@' ∈ s.data := by
  unfold validateEmail at h
  rcases hd : s.data.dropWhile atomChar with _ | ⟨c, r⟩
  · rw [hd] at h
    exact absurd h (by simp)
  · rw [hd] at h
    simp only [Bool.and_eq_true, beq_iff_eq] at h
    have hc : c = '@' := h.1.1.1
    have hmem : c ∈ s.data.dropWhile atomChar := by rw [hd]; exact List.mem_cons_self c r
    have hsub : s.data.dropWhile atomChar <:+ s.data := List.dropWhile_suffix atomChar
    exact hc ▸ hsub.subset hmem

theorem validateEmail_not_all_space {s : String} (h : validateEmail s = true) :
    s.data.all isJsSpace = false := by
  rcases hall : s.data.all isJsSpace with _ | _
  · rfl
  · rw [List.all_eq_true] at hall
    have := hall '@' (mem_at_of_validateEmail h)
    exact absurd this (by decide)

theorem validateEmail_ne_empty {s : String} (h : validateEmail s = true) : s ≠ "" := by
  intro he
  have : '@' ∈ s.data := mem_at_of_validateEmail h
  rw [he] at this
  exact absurd this (by decide)

theorem contactAdd_nodup (l : List String) (s : String) (h : l.Nodup) :
    (ContactForm.handleAddRecipient l s).Nodup := by
  unfold ContactForm.handleAddRecipient
  split_ifs with hc
  · simp only [Bool.and_eq_true, Bool.not_eq_true'] at hc
    have hmem : s ∉ l := fun hm => by
      have := List.elem_iff.mpr hm
      rw [show l.contains s = List.elem s l from rfl] at hc
      rw [this] at hc
      exact Bool.false_ne_true hc.2.symm
    simp [List.nodup_append, h, hmem]
  · exact h

theorem foldlAdd_nodup (es : List String) (l : List String) (h : l.Nodup) :
    (es.foldl ContactForm.handleAddRecipient l).Nodup := by
  induction es generalizing l with
  | nil => exact h
  | cons e es ih =>
    rw [List.foldl_cons]
    exact ih _ (contactAdd_nodup l e h)

theorem managerAdd_nodup (l : List String) (s : String) (h : l.Nodup) :
    (RecipientsManager.handleAddRecipient l s).2.Nodup := by
  unfold RecipientsManager.handleAddRecipient
  split_ifs with h1 h2 h3
  · exact h
  · exact h
  · exact h
  · exact contactAdd_nodup l s h

theorem clearAll_nodup (l : List String) (h : l.Nodup) :
    (RecipientsManager.clearAllClick l).Nodup := by
  unfold RecipientsManager.clearAllClick
  have aux : ∀ (es init : List String), init.Nodup →
      (es.foldl (fun _pending email => ContactForm.handleRemoveRecipient l email) init).Nodup := by
    intro es
    induction es with
    | nil => intro init h0; exact h0
    | cons e es ih =>
      intro init h0
      rw [List.foldl_cons]
      exact ih _ (List.Nodup.filter _ h)
  exact aux l l h

/-- C2: evaluation of the code at the failing input.  Clicking `Clear All`
on the two-element recipient list `["a@x.com", "b@y.com"]` leaves
`["a@x.com"]` — not the empty list the spec promises: every
`onRemoveRecipient` call filters the same pre-click snapshot and React
keeps only the last batched `setRecipients` value. -/
theorem clearAll_failing_eval :
    RecipientsManager.clearAllClick ["a@x.com", "b@y.com"] = ["a@x.com"] ∧
    RecipientsManager.clearAllClick ["a@x.com", "b@y.com"] ≠ [] := by decide

/-- C3: the manual add operation reports an error and leaves the list
unchanged iff the input is empty or whitespace-only, fails the validation
regex, or is already present under case-sensitive equality. -/
theorem manualAdd_rejects_iff (recipients : List String) (s : String) :
    ((RecipientsManager.handleAddRecipient recipients s).1 ≠ AddOutcome.added ∧
      (RecipientsManager.handleAddRecipient recipients s).2 = recipients) ↔
    (s.data.all isJsSpace = true ∨ validateEmail s = false ∨
      recipients.contains s = true) := by
  unfold RecipientsManager.handleAddRecipient
  split_ifs with h1 h2 h3
  · exact iff_of_true ⟨by simp, rfl⟩
      (Or.inl ((jsTrim_eq_empty_iff s).1 (beq_iff_eq.mp h1)))
  · exact iff_of_true ⟨by simp, rfl⟩ (Or.inr (Or.inl (by simpa using h2)))
  · exact iff_of_true ⟨by simp, rfl⟩ (Or.inr (Or.inr h3))
  · refine iff_of_false (fun hx => hx.1 rfl) (fun hr => ?_)
    rcases hr with ha | hv | hc
    · exact h1 (beq_iff_eq.mpr ((jsTrim_eq_empty_iff s).2 ha))
    · exact h2 (by simp [hv])
    · exact h3 hc

/-- C3 witness: a duplicate input is rejected without mutation. -/
theorem manualAdd_rejects_iff_witness :
    ((RecipientsManager.handleAddRecipient ["x@y.zz"] "x@y.zz").1 ≠ AddOutcome.added ∧
      (RecipientsManager.handleAddRecipient ["x@y.zz"] "x@y.zz").2 = ["x@y.zz"]) ↔
    (("x@y.zz" : String).data.all isJsSpace = true ∨ validateEmail "x@y.zz" = false ∨
      (["x@y.zz"] : List String).contains "x@y.zz" = true) :=
  manualAdd_rejects_iff ["x@y.zz"] "x@y.zz"

/-- C4: adding a syntactically valid address that is not yet present
appends exactly that string at the end, growing the list by one. -/
theorem manualAdd_appends (recipients : List String) (s : String)
    (hv : validateEmail s = true) (hp : recipients.contains s = false) :
    RecipientsManager.handleAddRecipient recipients s =
      (AddOutcome.added, recipients ++ [s]) ∧
    (RecipientsManager.handleAddRecipient recipients s).2.length =
      recipients.length + 1 := by
  have hne : s ≠ "" := validateEmail_ne_empty hv
  have hbe : (s == "") = false := beq_eq_false_iff_ne.mpr hne
  have ht : ¬(jsTrim s == "") = true := fun hx => by
    have := (jsTrim_eq_empty_iff s).1 (beq_iff_eq.mp hx)
    rw [validateEmail_not_all_space hv] at this
    exact Bool.false_ne_true this
  have h2' : ¬(!validateEmail s) = true := by simp [hv]
  have h3' : ¬recipients.contains s = true := by rw [hp]; exact Bool.false_ne_true
  have hcond : ((!(s == "")) && !(recipients.contains s)) = true := by rw [hbe, hp]; rfl
  have heq : RecipientsManager.handleAddRecipient recipients s =
      (AddOutcome.added, recipients ++ [s]) := by
    unfold RecipientsManager.handleAddRecipient
    rw [if_neg ht, if_neg h2', if_neg h3']
    unfold ContactForm.handleAddRecipient
    rw [if_pos hcond]
  exact ⟨heq, by rw [heq]; simp⟩

/-- C4 witness: adding `a@b.co` to `["x@y.zz"]`. -/
theorem manualAdd_appends_witness :
    validateEmail "a@b.co" = true ∧ (["x@y.zz"] : List String).contains "a@b.co" = false ∧
    (RecipientsManager.handleAddRecipient ["x@y.zz"] "a@b.co" =
      (AddOutcome.added, ["x@y.zz"] ++ ["a@b.co"]) ∧
     (RecipientsManager.handleAddRecipient ["x@y.zz"] "a@b.co").2.length =
      (["x@y.zz"] : List String).length + 1) :=
  ⟨by decide, by decide, manualAdd_appends ["x@y.zz"] "a@b.co" (by decide) (by decide)⟩

/-- C6: when the workbook fails to parse, `handleExcelImport` reports the
single import-failure toast, performs zero `onAddRecipient` calls and
leaves the recipient list unchanged. -/
theorem importFailure_no_adds (recipients : List String) :
    handleExcelImport none recipients = (ImportOutcome.importFailed, [], recipients) :=
  rfl

/-- C6 witness: the unparsable-workbook behaviour at a concrete list. -/
theorem importFailure_no_adds_witness :
    handleExcelImport none ["q@r.st"] = (ImportOutcome.importFailed, [], ["q@r.st"]) :=
  importFailure_no_adds ["q@r.st"]

/-- C7: the recipient list is duplicate-free initially and stays
duplicate-free under the manual add (manager plus parent callback), the
import-driven sequence of add-callback calls, removal, and the clear
operation. -/
theorem recipients_nodup_invariant :
    ([] : List String).Nodup ∧
    ∀ (l : List String) (s : String) (es : List String), l.Nodup →
      (RecipientsManager.handleAddRecipient l s).2.Nodup ∧
      (ContactForm.handleAddRecipient l s).Nodup ∧
      (es.foldl ContactForm.handleAddRecipient l).Nodup ∧
      (ContactForm.handleRemoveRecipient l s).Nodup ∧
      (RecipientsManager.clearAllClick l).Nodup :=
  ⟨List.nodup_nil, fun l s es h =>
    ⟨managerAdd_nodup l s h, contactAdd_nodup l s h, foldlAdd_nodup es l h,
     List.Nodup.filter _ h, clearAll_nodup l h⟩⟩

/-- C7 witness: the invariant instantiated at a concrete duplicate-free
list, one manual input and one import batch. -/
theorem recipients_nodup_invariant_witness :
    (["a@b.co"] : List String).Nodup ∧
    ((RecipientsManager.handleAddRecipient ["a@b.co"] "c@d.ee").2.Nodup ∧
     (ContactForm.handleAddRecipient ["a@b.co"] "c@d.ee").Nodup ∧
     ((["e@f.gg", "a@b.co"] : List String).foldl ContactForm.handleAddRecipient
        ["a@b.co"]).Nodup ∧
     (ContactForm.handleRemoveRecipient ["a@b.co"] "c@d.ee").Nodup ∧
     (RecipientsManager.clearAllClick ["a@b.co"]).Nodup) :=
  ⟨by decide, recipients_nodup_invariant.2 ["a@b.co"] "c@d.ee" ["e@f.gg", "a@b.co"] (by decide)⟩

/-- C8: with five files already staged a sixth is rejected and the staged
list is unchanged; and a batch that passes the count check keeps exactly
its files of size at most 10 MB (each oversize file is dropped with its
own toast while the rest are appended). -/
theorem attach_limits (staged files : List FileDesc) (f : FileDesc) :
    (staged.length = 5 →
      handleFileAttach staged [f] = (AttachOutcome.tooMany, staged)) ∧
    (staged.length + files.length ≤ 5 →
      handleFileAttach staged files =
        (AttachOutcome.accepted
          ((files.filter fun g => decide (maxSize < g.size)).map FileDesc.name),
         staged ++ files.filter fun g => !decide (maxSize < g.size))) := by
  constructor
  · intro h5
    unfold handleFileAttach
    rw [if_pos]
    simp [maxFiles, h5]
  · intro hle
    unfold handleFileAttach
    rw [if_neg]
    simp only [maxFiles, not_lt]
    exact hle

/-- C8 witness: a sixth file bounces off a full staging list; an oversize
file of an in-cap batch is dropped while its sibling is appended. -/
theorem attach_limits_witness :
    (([⟨"a.pdf", 100⟩, ⟨"b.pdf", 100⟩, ⟨"c.pdf", 100⟩, ⟨"d.pdf", 100⟩,
       ⟨"e.pdf", 100⟩] : List FileDesc).length = 5 ∧
     handleFileAttach
        [⟨"a.pdf", 100⟩, ⟨"b.pdf", 100⟩, ⟨"c.pdf", 100⟩, ⟨"d.pdf", 100⟩, ⟨"e.pdf", 100⟩]
        [⟨"f.pdf", 100⟩] =
      (AttachOutcome.tooMany,
       [⟨"a.pdf", 100⟩, ⟨"b.pdf", 100⟩, ⟨"c.pdf", 100⟩, ⟨"d.pdf", 100⟩, ⟨"e.pdf", 100⟩])) ∧
    (([⟨"a.pdf", 100⟩] : List FileDesc).length +
       ([⟨"big.zip", 20000000⟩, ⟨"ok.txt", 5⟩] : List FileDesc).length ≤ 5 ∧
     handleFileAttach [⟨"a.pdf", 100⟩] [⟨"big.zip", 20000000⟩, ⟨"ok.txt", 5⟩] =
      (AttachOutcome.accepted ["big.zip"], [⟨"a.pdf", 100⟩, ⟨"ok.txt", 5⟩])) := by
  constructor
  · exact ⟨rfl, (attach_limits _ [] _).1 rfl⟩
  · refine ⟨by decide, ?_⟩
    rw [(attach_limits [⟨"a.pdf", 100⟩] [⟨"big.zip", 20000000⟩, ⟨"ok.txt", 5⟩]
          ⟨"x", 0⟩).2 (by decide)]
    decide

/-- C9: submitting with an empty recipient list produces only the
`No Recipients` toast; the simulated send delay is never reached. -/
theorem submit_zero_recipients_no_delay (recipients : List String)
    (h : recipients.length = 0) :
    onSubmit recipients = [SubmitEvent.noRecipientsToast] ∧
    SubmitEvent.sendDelay ∉ onSubmit recipients := by
  unfold onSubmit
  rw [if_pos h]
  exact ⟨rfl, by decide⟩

/-- C9 witness: the empty recipient list. -/
theorem submit_zero_recipients_no_delay_witness :
    ([] : List String).length = 0 ∧
    (onSubmit [] = [SubmitEvent.noRecipientsToast] ∧
     SubmitEvent.sendDelay ∉ onSubmit []) :=
  ⟨rfl, submit_zero_recipients_no_delay [] rfl⟩

/-- C10: whenever the staged count plus the batch size exceeds five, the
whole batch is rejected and the staged list is unchanged, even if the
staged list is below the cap and some batch files are individually
acceptable. -/
theorem attach_batch_overflow_rejects (staged files : List FileDesc)
    (h : 5 < staged.length + files.length) :
    handleFileAttach staged files = (AttachOutcome.tooMany, staged) := by
  unfold handleFileAttach
  rw [if_pos]
  exact h

/-- C10 witness: three staged files (below the cap) plus a batch of three
small files (each within the size limit) is rejected wholesale. -/
theorem attach_batch_overflow_rejects_witness :
    5 < ([⟨"a.pdf", 10⟩, ⟨"b.pdf", 10⟩, ⟨"c.pdf", 10⟩] : List FileDesc).length +
      ([⟨"d.pdf", 10⟩, ⟨"e.pdf", 10⟩, ⟨"f.pdf", 10⟩] : List FileDesc).length ∧
    handleFileAttach [⟨"a.pdf", 10⟩, ⟨"b.pdf", 10⟩, ⟨"c.pdf", 10⟩]
        [⟨"d.pdf", 10⟩, ⟨"e.pdf", 10⟩, ⟨"f.pdf", 10⟩] =
      (AttachOutcome.tooMany, [⟨"a.pdf", 10⟩, ⟨"b.pdf", 10⟩, ⟨"c.pdf", 10⟩]) :=
  ⟨by decide,
   attach_batch_overflow_rejects [⟨"a.pdf", 10⟩, ⟨"b.pdf", 10⟩, ⟨"c.pdf", 10⟩]
     [⟨"d.pdf", 10⟩, ⟨"e.pdf", 10⟩, ⟨"f.pdf", 10⟩] (by decide)⟩

theorem toNat_ofNat_of_lt {m : Nat} (h : m < 55296) : (Char.ofNat m).toNat = m := by
  rw [Char.ofNat, dif_pos (Or.inl h)]
  rfl

theorem toNat_toLower (c : Char) :
    (Char.toLower c).toNat =
      if c.toNat ≥ 65 ∧ c.toNat ≤ 90 then c.toNat + 32 else c.toNat := by
  show (if c.toNat ≥ 65 ∧ c.toNat ≤ 90 then Char.ofNat (c.toNat + 32) else c).toNat = _
  split_ifs with h
  · exact toNat_ofNat_of_lt (by omega)
  · rfl

theorem isLocalChar_iff (c : Char) :
    isLocalChar c = true ↔
      ((65 ≤ c.toNat ∧ c.toNat ≤ 90) ∨ (97 ≤ c.toNat ∧ c.toNat ≤ 122) ∨
       (48 ≤ c.toNat ∧ c.toNat ≤ 57) ∨ c.toNat = 46 ∨ c.toNat = 95 ∨
       c.toNat = 37 ∨ c.toNat = 43 ∨ c.toNat = 45) := by
  unfold isLocalChar
  simp [Bool.or_eq_true, Bool.and_eq_true, decide_eq_true_eq, or_assoc]

theorem isDomainChar_local {c : Char} (h : isDomainChar c = true) :
    isLocalChar c = true := by
  unfold isDomainChar at h
  rw [isLocalChar_iff]
  simp only [Bool.or_eq_true, Bool.and_eq_true, decide_eq_true_eq] at h
  omega

theorem isTldChar_local {c : Char} (h : isTldChar c = true) :
    isLocalChar c = true := by
  unfold isTldChar at h
  rw [isLocalChar_iff]
  simp only [Bool.or_eq_true, Bool.and_eq_true, decide_eq_true_eq] at h
  omega

theorem atomChar_of_toNat {c : Char}
    (h : ¬isJsSpaceN c.toNat = true ∧ c.toNat ≠ 64) : atomChar c = true := by
  unfold atomChar
  simp only [Bool.and_eq_true, Bool.not_eq_true']
  constructor
  · cases hx : isJsSpaceN c.toNat
    · rfl
    · exact absurd hx h.1
  · simp only [beq_eq_false_iff_ne, ne_eq]
    exact h.2

theorem isLocalChar_not_space {c : Char} (h : isLocalChar c = true) :
    isJsSpace c = false := by
  rw [isLocalChar_iff] at h
  unfold isJsSpace isJsSpaceN
  simp only [Bool.or_eq_false_iff, Bool.and_eq_false_iff, decide_eq_false_iff_not,
    Bool.or_eq_true, Bool.and_eq_true, decide_eq_true_eq]
  omega

theorem isLocalChar_toLower_atom {c : Char} (h : isLocalChar c = true) :
    atomChar (Char.toLower c) = true := by
  rw [isLocalChar_iff] at h
  refine atomChar_of_toNat ⟨?_, ?_⟩
  · rw [toNat_toLower]
    split_ifs with hu
    · unfold isJsSpaceN
      simp only [Bool.or_eq_true, Bool.and_eq_true, decide_eq_true_eq]
      omega
    · unfold isJsSpaceN
      simp only [Bool.or_eq_true, Bool.and_eq_true, decide_eq_true_eq]
      omega
  · rw [toNat_toLower]
    split_ifs with hu
    · omega
    · omega

theorem takeWhile_append_all {α : Type} {p : α → Bool} {l₁ l₂ : List α}
    (h : ∀ x ∈ l₁, p x = true) :
    (l₁ ++ l₂).takeWhile p = l₁ ++ l₂.takeWhile p := by
  induction l₁ with
  | nil => rfl
  | cons x xs ih =>
    rw [List.cons_append, List.takeWhile_cons, if_pos (h x (List.mem_cons_self x xs)),
      ih (fun y hy => h y (List.mem_cons_of_mem x hy)), List.cons_append]

theorem dropWhile_append_all {α : Type} {p : α → Bool} {l₁ l₂ : List α}
    (h : ∀ x ∈ l₁, p x = true) :
    (l₁ ++ l₂).dropWhile p = l₂.dropWhile p := by
  induction l₁ with
  | nil => rfl
  | cons x xs ih =>
    rw [List.cons_append, List.dropWhile_cons, if_pos (h x (List.mem_cons_self x xs)),
      ih (fun y hy => h y (List.mem_cons_of_mem x hy))]

theorem findSplit_sound {r : List Char} {k : Nat} (h : findSplit r = some k) :
    1 ≤ k ∧ r.get? k = some '.' ∧
      2 ≤ ((r.drop (k + 1)).takeWhile isTldChar).length := by
  unfold findSplit at h
  have hk := List.max?_mem (fun a b => max_choice a b) h
  have := (List.mem_filter.1 hk).2
  simp only [Bool.and_eq_true, decide_eq_true_eq, beq_iff_eq] at this
  exact ⟨this.1.1, this.1.2, this.2⟩


theorem take_middle_dot {r : List Char} {k t : Nat} (hklt : k < r.length)
    (hget : r.get ⟨k, hklt⟩ = '.') :
    r.take (k + 1 + t) = r.take k ++ '.' :: (r.drop (k + 1)).take t := by
  conv_lhs => rw [← List.take_append_drop k r]
  rw [List.take_append_eq_append_take,
    List.take_of_length_le (by rw [List.length_take]; omega),
    List.length_take, Nat.min_eq_left (Nat.le_of_lt hklt),
    show k + 1 + t - k = t + 1 by omega,
    List.drop_eq_get_cons hklt, hget, List.take_succ_cons]

theorem matchAt_shape {cs m rs : List Char} (h : matchAt cs = some (m, rs)) :
    ∃ a b c, m = a ++ '@' :: (b ++ '.' :: c) ∧
      a ≠ [] ∧ b ≠ [] ∧ c ≠ [] ∧
      (∀ x ∈ a, isLocalChar x = true) ∧ (∀ x ∈ b, isDomainChar x = true) ∧
      (∀ x ∈ c, isTldChar x = true) := by
  simp only [matchAt] at h
  by_cases hae : (cs.takeWhile isLocalChar).isEmpty
  · rw [if_pos hae] at h
    exact absurd h (by simp)
  rw [if_neg hae] at h
  split at h
  case _ c0 rest hd =>
    split at h
    case isTrue hc0 =>
      split at h
      case _ k hf =>
        have hpair := Option.some.inj h
        rw [Prod.mk.injEq] at hpair
        obtain ⟨hm, -⟩ := hpair
        obtain ⟨h1k, hdot, h2t⟩ := findSplit_sound hf
        obtain ⟨hklt, hget⟩ := List.get?_eq_some.1 hdot
        set a := cs.takeWhile isLocalChar with hadef
        set r := rest.takeWhile isDomainChar with hrdef
        set tld := (r.drop (k + 1)).takeWhile isTldChar with htdef
        have hane : a ≠ [] := fun hnil => hae (by simp [hnil])
        have hbne : r.take k ≠ [] := by
          intro hnil
          rcases List.take_eq_nil_iff.1 hnil with h0 | h0
          · omega
          · rw [h0] at hklt
            simp at hklt
        have hcne : tld ≠ [] := by
          intro hnil
          rw [hnil] at h2t
          simp at h2t
        refine ⟨a, r.take k, tld, ?_, hane, hbne, hcne, ?_, ?_, ?_⟩
        · have hcs : cs = a ++ c0 :: rest := by
            conv_lhs => rw [← List.take_append_drop a.length cs, hd]
            rw [← List.prefix_iff_eq_take.1 (List.takeWhile_prefix isLocalChar)]
          have hc0eq : c0 = '@' := beq_iff_eq.mp hc0
          obtain ⟨u, hu⟩ : ∃ u, r ++ u = rest := List.takeWhile_prefix isDomainChar
          have htlen : tld.length ≤ r.length - (k + 1) := by
            have h1 : tld.length ≤ (r.drop (k + 1)).length :=
              (List.takeWhile_prefix isTldChar).length_le
            simpa using h1
          have hkt : k + 1 + tld.length ≤ r.length := by omega
          rw [← hm, hcs, List.take_append_eq_append_take,
            List.take_of_length_le (by omega),
            show a.length + 1 + (k + 1 + tld.length) - a.length =
              (k + 1 + tld.length) + 1 by omega,
            List.take_succ_cons, hc0eq, ← hu, List.take_append_eq_append_take,
            Nat.sub_eq_zero_of_le hkt, List.take_zero, List.append_nil,
            take_middle_dot hklt hget,
            ← List.prefix_iff_eq_take.1 (List.takeWhile_prefix isTldChar)]
        · exact fun x hx => List.mem_takeWhile_imp hx
        · exact fun x hx => List.mem_takeWhile_imp (List.take_subset k r hx)
        · exact fun x hx => List.mem_takeWhile_imp hx
      case _ hf =>
        exact absurd h (by simp)
    case isFalse hc0 =>
      exact absurd h (by simp)
  case _ hd =>
    exact absurd h (by simp)

theorem trim_eq_self_of_noSpace {l : List Char} (h : ∀ x ∈ l, isJsSpace x = false) :
    trimList l = l := by
  unfold trimList
  rw [dropWhile_eq_self_of_all _ _ h,
    dropWhile_eq_self_of_all _ _ (fun x hx => h x (List.mem_reverse.1 hx)),
    List.reverse_reverse]

theorem validateEmail_lower {a b c : List Char}
    (ha : a ≠ []) (hb : b ≠ []) (hc : c ≠ [])
    (hal : ∀ x ∈ a, isLocalChar x = true) (hbl : ∀ x ∈ b, isDomainChar x = true)
    (hcl : ∀ x ∈ c, isTldChar x = true) :
    validateEmail (jsToLowerCase (jsTrim ⟨a ++ '@' :: (b ++ '.' :: c)⟩)) = true := by
  have hns : ∀ x ∈ a ++ '@' :: (b ++ '.' :: c), isJsSpace x = false := by
    intro x hx
    rcases List.mem_append.1 hx with hx | hx
    · exact isLocalChar_not_space (hal x hx)
    · rcases List.mem_cons.1 hx with rfl | hx
      · decide
      · rcases List.mem_append.1 hx with hx | hx
        · exact isLocalChar_not_space (isDomainChar_local (hbl x hx))
        · rcases List.mem_cons.1 hx with rfl | hx
          · decide
          · exact isLocalChar_not_space (isTldChar_local (hcl x hx))
  have htrim : jsTrim ⟨a ++ '@' :: (b ++ '.' :: c)⟩ = ⟨a ++ '@' :: (b ++ '.' :: c)⟩ := by
    unfold jsTrim
    rw [show (⟨a ++ '@' :: (b ++ '.' :: c)⟩ : String).data = a ++ '@' :: (b ++ '.' :: c)
        from rfl,
      trim_eq_self_of_noSpace hns]
  have hat : Char.toLower '@' = '@' := by decide
  have hdt : Char.toLower '.' = '.' := by decide
  have hlow : jsToLowerCase ⟨a ++ '@' :: (b ++ '.' :: c)⟩ =
      ⟨a.map Char.toLower ++ '@' ::
        (b.map Char.toLower ++ '.' :: c.map Char.toLower)⟩ := by
    unfold jsToLowerCase
    rw [show (⟨a ++ '@' :: (b ++ '.' :: c)⟩ : String).data = a ++ '@' :: (b ++ '.' :: c)
        from rfl]
    simp [List.map_append, hat, hdt]
  rw [htrim, hlow]
  have haat : ∀ x ∈ a.map Char.toLower, atomChar x = true := by
    intro x hx
    obtain ⟨y, hy, rfl⟩ := List.mem_map.1 hx
    exact isLocalChar_toLower_atom (hal y hy)
  have hrat : ∀ x ∈ b.map Char.toLower ++ '.' :: c.map Char.toLower,
      atomChar x = true := by
    intro x hx
    rcases List.mem_append.1 hx with hx | hx
    · obtain ⟨y, hy, rfl⟩ := List.mem_map.1 hx
      exact isLocalChar_toLower_atom (isDomainChar_local (hbl y hy))
    · rcases List.mem_cons.1 hx with rfl | hx
      · decide
      · obtain ⟨y, hy, rfl⟩ := List.mem_map.1 hx
        exact isLocalChar_toLower_atom (isTldChar_local (hcl y hy))
  have hdw : (a.map Char.toLower ++ '@' ::
      (b.map Char.toLower ++ '.' :: c.map Char.toLower)).dropWhile atomChar =
      '@' :: (b.map Char.toLower ++ '.' :: c.map Char.toLower) := by
    rw [dropWhile_append_all haat, List.dropWhile_cons, if_neg (by decide)]
  have htw : (a.map Char.toLower ++ '@' ::
      (b.map Char.toLower ++ '.' :: c.map Char.toLower)).takeWhile atomChar =
      a.map Char.toLower := by
    rw [takeWhile_append_all haat, List.takeWhile_cons, if_neg (by decide),
      List.append_nil]
  have hane : (a.map Char.toLower).isEmpty = false := by
    cases hmap : a.map Char.toLower with
    | nil => exact absurd (List.map_eq_nil.1 hmap) ha
    | cons x xs => rfl
  unfold validateEmail
  rw [show (⟨a.map Char.toLower ++ '@' ::
      (b.map Char.toLower ++ '.' :: c.map Char.toLower)⟩ : String).data =
      a.map Char.toLower ++ '@' :: (b.map Char.toLower ++ '.' :: c.map Char.toLower)
      from rfl]
  simp only [hdw, htw, hane]
  simp only [Bool.and_eq_true, beq_self_eq_true, Bool.not_false, true_and,
    List.all_eq_true]
  refine ⟨hrat, ?_⟩
  unfold hasInnerDot
  rw [List.any_eq_true]
  refine ⟨(b.map Char.toLower).length, List.mem_range.2 ?_, ?_⟩
  · simp only [List.length_append, List.length_cons]
    have := List.length_pos.2 (fun hnil => hc (List.map_eq_nil.1 hnil) :
      c.map Char.toLower ≠ [])
    omega
  · simp only [Bool.and_eq_true, decide_eq_true_eq]
    refine ⟨⟨?_, ?_⟩, ?_⟩
    · exact List.length_pos.2 (fun hnil => hb (List.map_eq_nil.1 hnil))
    · simp only [List.length_append, List.length_cons]
      have := List.length_pos.2 (fun hnil => hc (List.map_eq_nil.1 hnil) :
        c.map Char.toLower ≠ [])
      omega
    · rw [List.get?_append_right (Nat.le_refl _), Nat.sub_self]
      rfl

theorem scanAux_sound :
    ∀ {fuel : Nat} {cs m : List Char}, m ∈ scanAux fuel cs →
      ∃ cs' rest, matchAt cs' = some (m, rest) := by
  intro fuel
  induction fuel with
  | zero =>
    intro cs m h
    exact absurd h (by simp [scanAux])
  | succ n ih =>
    intro cs m h
    cases cs with
    | nil => exact absurd h (by simp [scanAux])
    | cons c cs' =>
      rw [scanAux] at h
      rcases hm2 : matchAt (c :: cs') with _ | ⟨m2, rest⟩
      · rw [hm2] at h
        exact ih h
      · rw [hm2] at h
        rcases List.mem_cons.1 h with rfl | h
        · exact ⟨c :: cs', rest, hm2⟩
        · exact ih h

theorem extractMatches_valid {cell s : String} (h : s ∈ extractMatches cell) :
    validateEmail (jsToLowerCase (jsTrim s)) = true := by
  unfold extractMatches at h
  obtain ⟨m, hm, rfl⟩ := List.mem_map.1 h
  obtain ⟨cs', rest, hmatch⟩ := scanAux_sound hm
  obtain ⟨a, b, c, rfl, ha, hb, hc, hal, hbl, hcl⟩ := matchAt_shape hmatch
  exact validateEmail_lower ha hb hc hal hbl hcl

/-- C5 counterexample (the claim's negation): no string matched by the
extraction regex ever fails re-validation after trimming and lowercasing —
the extraction regex is strictly tighter than, not looser than, the
validation rule. -/
theorem extraction_never_fails_revalidation :
    ¬ ∃ (cell s : String), s ∈ extractMatches cell ∧
        validateEmail (jsToLowerCase (jsTrim s)) = false := by
  rintro ⟨cell, s, hmem, hfalse⟩
  rw [extractMatches_valid hmem] at hfalse
  exact absurd hfalse (by decide)

/-- C5 amended: every extracted match passes re-validation after
normalization, so the invalid set of every import run is empty and the
routing rule for failing matches is vacuous. -/
theorem importInvalid_always_empty (recipients : List String) (wb : Workbook) :
    (runImport recipients wb).invalid = [] := by
  have hfold : ∀ (ms : List String),
      (∀ x ∈ ms, validateEmail (jsToLowerCase (jsTrim x)) = true) →
      ∀ t0 : ImportTally, (ms.foldl (classifyMatch recipients) t0).invalid = t0.invalid := by
    intro ms
    induction ms with
    | nil => intro _ t0; rfl
    | cons x xs ih =>
      intro hval t0
      rw [List.foldl_cons, ih (fun y hy => hval y (List.mem_cons_of_mem x hy))]
      unfold classifyMatch
      rw [if_pos (hval x (List.mem_cons_self x xs))]
      split_ifs <;> rfl
  have hcell : ∀ (cell : String) (t : ImportTally),
      (scanCell recipients t cell).invalid = t.invalid := by
    intro cell t
    unfold scanCell
    exact hfold (extractMatches cell) (fun x hx => extractMatches_valid hx) t
  unfold runImport
  have hall : ∀ (cells : List String) (t : ImportTally),
      (cells.foldl (scanCell recipients) t).invalid = t.invalid := by
    intro cells
    induction cells with
    | nil => intro t; rfl
    | cons cell cells ih =>
      intro t
      rw [List.foldl_cons, ih, hcell]
  rw [hall]

/-- C1 amended: on the spec's example workbook against the recipient list
`["a@x.com"]`, the extractor classifies new = `[b@y.com, c@z.com]` (in
cell/match scan order), duplicate = `[a@x.com]`, invalid = `{}` — the cell
`not-an-email` yields no regex match at all, so nothing reaches the
invalid set — and exactly two add calls occur, in that discovery order.
(The post-import state is `["a@x.com", "c@z.com"]`: both add calls write a
one-element append of the same pre-import snapshot and only the last
batched write survives.) -/
theorem excelImport_example :
    runImport ["a@x.com"] wbExample =
      ⟨["b@y.com", "c@z.com"], ["a@x.com"], []⟩ ∧
    handleExcelImport (some wbExample) ["a@x.com"] =
      (ImportOutcome.completed 2 1 0, ["b@y.com", "c@z.com"],
       ["a@x.com", "c@z.com"]) :=
  ⟨by decide, rfl⟩

/-- C1 counterexample: the claim's `invalid = {not-an-email}` fails — the
string `not-an-email` is not in the invalid set of that run (which is
empty). -/
theorem excelImport_example_no_invalid :
    "not-an-email" ∉ (runImport ["a@x.com"] wbExample).invalid ∧
    (runImport ["a@x.com"] wbExample).invalid ≠ ["not-an-email"] := by decide
